import Mathlib

/-!
Verification of the answer-matching core of the Claronav LMS backend
(src/server.js): text normalizer, tokenizer, sentence splitter, document
extractor dispatch, and the keyword-overlap answer matcher of the
/api/ai/chat endpoint.  Strings are modelled as lists of characters.
-/

namespace Claronav

/-- Strings are modelled as lists of characters. -/
abbrev Str := List Char

/-- Convert a Lean string literal to the model's representation. -/
def str (s : String) : Str := s.data

/-- The space character (written via its code point). -/
def sp : Char := Char.ofNat 32

/-- The JavaScript whitespace class: characters matched by the regex
class \s and trimmed by String.prototype.trim. -/
def isWs (c : Char) : Bool :=
  let n := c.toNat
  n == 9 || n == 10 || n == 11 || n == 12 || n == 13 || n == 32 ||
  n == 160 || n == 5760 || (decide (8192 ≤ n) && decide (n ≤ 8202)) ||
  n == 8232 || n == 8233 || n == 8239 || n == 8287 || n == 12288 ||
  n == 65279

/-- ASCII case mapping of String.prototype.toLowerCase.  Characters
outside the ASCII uppercase range are left unchanged; any non-ASCII
letter is erased by the character filter applied right after it in
normalizeText, so the composition agrees with the source there. -/
def jsToLower (c : Char) : Char :=
  if 65 ≤ c.toNat ∧ c.toNat ≤ 90 then Char.ofNat (c.toNat + 32) else c

/-- Membership in [a-z0-9] (code points 97-122 and 48-57). -/
def isLowerAlnum (c : Char) : Bool :=
  (decide (97 ≤ c.toNat) && decide (c.toNat ≤ 122)) ||
  (decide (48 ≤ c.toNat) && decide (c.toNat ≤ 57))

/-- One character of the regex replace of [^a-z0-9\s] with a space
(applied after lower-casing in normalizeText). -/
def scrub (c : Char) : Char :=
  if isLowerAlnum c || isWs c then c else sp

/-- The regex replace of \s+ with a single space: every maximal run of
whitespace becomes one space character (emitted when the run ends). -/
def collapseWs : Str → Str
  | [] => []
  | [c] => if isWs c then [sp] else [c]
  | c :: d :: rest =>
    if isWs c then
      if isWs d then collapseWs (d :: rest)
      else sp :: collapseWs (d :: rest)
    else c :: collapseWs (d :: rest)

/-- Drop trailing JavaScript whitespace. -/
def trimEnd (l : Str) : Str :=
  (l.reverse.dropWhile (fun d => isWs d)).reverse

/-- String.prototype.trim: drop leading and trailing whitespace. -/
def trim (l : Str) : Str :=
  trimEnd (l.dropWhile (fun d => isWs d))

/-- normalizeText from src/server.js: lower-case, replace every
character outside [a-z0-9\s] with a space, collapse whitespace runs to
one space, trim. -/
def normalizeText (text : Str) : Str :=
  trim (collapseWs ((text.map jsToLower).map scrub))

/-- tokenize from src/server.js: split the normalized text on single
spaces and keep only words longer than 2 characters. -/
def tokenize (text : Str) : List Str :=
  ((normalizeText text).splitOn sp).filter (fun w => decide (2 < w.length))

/-- Sentence-terminating punctuation of the splitSentences regex. -/
def isPunct (c : Char) : Bool := c == '.' || c == '!' || c == '?'

/-- Push a character onto the first fragment of a split result. -/
def consHead (c : Char) : List Str → List Str
  | [] => [[c]]
  | f :: fs => (c :: f) :: fs

/-- The split on the lookbehind regex: cut immediately after a [.!?]
that is followed by whitespace, consuming that whitespace.  It is
applied after collapseWs, so a whitespace run is a single space. -/
def splitAfterPunct : Str → List Str
  | [] => [[]]
  | [c] => [[c]]
  | c :: d :: rest =>
    if isPunct c && d == sp then [c] :: splitAfterPunct rest
    else consHead c (splitAfterPunct (d :: rest))

/-- splitSentences from src/server.js: collapse whitespace, split after
sentence punctuation, and drop fragments that are empty or
whitespace-only. -/
def splitSentences (text : Str) : List Str :=
  (splitAfterPunct (collapseWs text)).filter
    (fun s => !s.isEmpty && !(trim s).isEmpty)

-- Smoke checks against the behaviour of the JavaScript functions.
example : normalizeText (str "  Hello,  WORLD!! 42 ") = str "hello world 42" := by decide
example : tokenize (str "a an the catalog") = [str "the", str "catalog"] := by decide
example : splitSentences (str "Bone is hard. Cartilage is soft!") =
    [str "Bone is hard.", str "Cartilage is soft!"] := by decide
example : splitSentences (str "a.b") = [str "a.b"] := by decide
example : splitSentences (str "Hi!  ") = [str "Hi!"] := by decide

/-! ## Document extractor (src/server.js, extractTextFromFile) -/

/-- The suffix of a name starting at its last dot, when the name holds
one. -/
def extRec : Str → Option Str
  | [] => none
  | c :: rest =>
    match extRec rest with
    | some e => some e
    | none => if c == '.' then some (c :: rest) else none

/-- path.extname (posix): the extension of the final path segment, from
its last dot; empty when the segment has no dot, when the dot is its
first character, or when the segment is "..". -/
def extname (p : Str) : Str :=
  let base := (p.splitOn '/').getLastD []
  if base = str ".." then []
  else
    match base with
    | [] => []
    | _ :: rest => (extRec rest).getD []

def mimeTextPlain : Str := str "text/plain"

def mimePdf : Str := str "application/pdf"

def mimeDocx : Str :=
  str "application/vnd.openxmlformats-officedocument.wordprocessingml.document"

def unsupportedMsg : Str := str "Unsupported file type. Please upload TXT, PDF, or DOCX."

/-- Outcome of extraction: extracted text, or the thrown unsupported-type
error with its message. -/
inductive ExtractResult where
  | ok (text : Str)
  | unsupported (message : Str)
deriving DecidableEq, Repr

/-- extractTextFromFile from src/server.js.  The blocking file read and
the third-party parsers are abstracted as inputs: fileText is the
verbatim UTF-8 content of the file, pdfText is the text field of the
pdf-parse result when present and nonempty, mammothValue likewise the
value of the mammoth raw-text result. -/
def extractTextFromFile (mimeType originalName : Str)
    (fileText : Str) (pdfText mammothValue : Option Str) : ExtractResult :=
  let ext := (extname originalName).map jsToLower
  if mimeType = mimeTextPlain ∨ ext = str ".txt" then .ok fileText
  else if mimeType = mimePdf ∨ ext = str ".pdf" then .ok (pdfText.getD [])
  else if mimeType = mimeDocx ∨ ext = str ".docx" then .ok (mammothValue.getD [])
  else .unsupported unsupportedMsg

example : extname (str "dir/x.PNG") = str ".PNG" := by decide
example : extname (str "noext") = [] := by decide
example : extname (str ".bashrc") = [] := by decide
example : extractTextFromFile (str "image/png") (str "x.png") (str "raw") none none =
    ExtractResult.unsupported unsupportedMsg := by decide
example : extractTextFromFile (str "application/pdf") (str "a.pdf") (str "raw") none none =
    ExtractResult.ok [] := by decide

/-! ## Answer matcher (src/server.js, POST /api/ai/chat) -/

/-- A knowledge-store entry as the matcher reads it: the extracted text
and the title shown as the answer's source. -/
structure KnowledgeEntry where
  title : Str
  text : Str
deriving DecidableEq, Repr

/-- The overlap loop of the chat endpoint: for each question token, add
one when the sentence's tokens include it. -/
def overlap (questionTokens tokens : List Str) : Nat :=
  questionTokens.foldl (fun acc q => if q ∈ tokens then acc + 1 else acc) 0

/-- The mutable best record of the chat endpoint. -/
structure Best where
  score : Nat
  sentence : Str
  title : Str
deriving DecidableEq, Repr

/-- let best = \x7b score: 0, sentence: '', title: '' \x7d. -/
def initBest : Best := ⟨0, [], []⟩

/-- The body of the inner sentences.forEach: replace the best record
when the sentence's overlap strictly exceeds the best score. -/
def stepSentence (questionTokens : List Str) (title : Str) (best : Best)
    (sentence : Str) : Best :=
  let ov := overlap questionTokens (tokenize sentence)
  if best.score < ov then ⟨ov, trim sentence, title⟩ else best

/-- The body of the outer aiKnowledge.forEach: fold the sentence step
over the entry's sentences. -/
def stepEntry (questionTokens : List Str) (best : Best) (e : KnowledgeEntry) : Best :=
  (splitSentences e.text).foldl (stepSentence questionTokens e.title) best

/-- The full double forEach of the chat endpoint. -/
def runMatcher (questionTokens : List Str) (entries : List KnowledgeEntry) : Best :=
  entries.foldl (stepEntry questionTokens) initBest

def noTrainingMsg : Str :=
  str "No training material is available yet. Please try again later."

def noAnswerMsg : Str :=
  str "I could not find a relevant answer in the training material. Try rephrasing your question."

/-- The response of the chat endpoint: a status-400 error, a success
answer with no source, or a matched sentence with its optional source
title (an absent JSON field is none). -/
inductive ChatResponse where
  | error (status : Nat) (message : Str)
  | answerOnly (answer : Str)
  | matched (answer : Str) (sourceTitle : Option Str)
deriving DecidableEq, Repr

/-- POST /api/ai/chat from src/server.js: reject a missing or blank
question with a 400 error, answer the no-training message on an empty
store, run the matcher, and fall back when no sentence was selected;
an empty winning title is dropped from the response (title or
undefined). -/
def aiChat (question : Str) (entries : List KnowledgeEntry) : ChatResponse :=
  if (trim question).isEmpty then .error 400 (str "Missing question")
  else if entries.isEmpty then .answerOnly noTrainingMsg
  else if (runMatcher (tokenize question) entries).sentence.isEmpty then
    .answerOnly noAnswerMsg
  else
    .matched (runMatcher (tokenize question) entries).sentence
      (if (runMatcher (tokenize question) entries).title.isEmpty then none
       else some (runMatcher (tokenize question) entries).title)

/-- The flattened scan order of the matcher: every sentence paired with
its entry's title, entries in store order, sentences in split order. -/
def candidates (entries : List KnowledgeEntry) : List (Str × Str) :=
  entries.flatMap (fun e => (splitSentences e.text).map (fun s => (s, e.title)))

/-- The sentence step expressed on a sentence-title pair of the
flattened scan. -/
def stepCand (questionTokens : List Str) (best : Best) (c : Str × Str) : Best :=
  let ov := overlap questionTokens (tokenize c.1)
  if best.score < ov then ⟨ov, trim c.1, c.2⟩ else best

/-- Join fragments with single spaces (used to state that the sentence
split keeps the delimiter and consumes exactly the split point's
whitespace). -/
def joinSp : List Str → Str
  | [] => []
  | [f] => f
  | f :: f' :: fs => f ++ sp :: joinSp (f' :: fs)

example :
    aiChat (str "What protects the brain")
      [⟨str "Anatomy", str "The skull protects the brain. The spine supports the body."⟩] =
    ChatResponse.matched (str "The skull protects the brain.") (some (str "Anatomy")) := by
  decide

example : aiChat (str "what is bone") [] = ChatResponse.answerOnly noTrainingMsg := by decide
example : aiChat (str "   ") [⟨str "T", str "Bones."⟩] =
    ChatResponse.error 400 (str "Missing question") := by decide
example : aiChat (str "zzz") [⟨str "T", str "Bones are hard."⟩] =
    ChatResponse.answerOnly noAnswerMsg := by decide

/-! ## Character-level facts -/

theorem isWs_sp : isWs sp = true := by decide

theorem isPunct_sp : isPunct sp = false := by decide

theorem isWs_of_isLowerAlnum {c : Char} (h : isLowerAlnum c = true) : isWs c = false := by
  simp only [isLowerAlnum, Bool.or_eq_true, Bool.and_eq_true, decide_eq_true_eq] at h
  simp only [isWs, Bool.or_eq_false_iff, beq_eq_false_iff_ne, ne_eq,
    Bool.and_eq_false_iff, decide_eq_false_iff_not, not_le]
  omega

theorem jsToLower_fixed {c : Char} (h : isLowerAlnum c = true ∨ c = sp) :
    jsToLower c = c := by
  rcases h with h | rfl
  · simp only [isLowerAlnum, Bool.or_eq_true, Bool.and_eq_true, decide_eq_true_eq] at h
    unfold jsToLower
    rw [if_neg (by omega)]
  · decide

theorem scrub_fixed {c : Char} (h : isLowerAlnum c = true ∨ c = sp) : scrub c = c := by
  rcases h with h | rfl
  · simp [scrub, h]
  · decide

theorem scrub_shape (c : Char) : isLowerAlnum (scrub c) = true ∨ isWs (scrub c) = true := by
  unfold scrub
  split
  · rename_i h
    rcases Bool.or_eq_true _ _ ▸ h with h' | h'
    · exact Or.inl h'
    · exact Or.inr h'
  · exact Or.inr isWs_sp

/-! ## Whitespace collapse -/

theorem collapseWs_cons_not_ws {d : Char} (rest : Str) (h : isWs d = false) :
    collapseWs (d :: rest) = d :: collapseWs rest := by
  cases rest with
  | nil => simp [collapseWs, h]
  | cons e rest' => simp [collapseWs, h]

theorem mem_collapseWs {l : Str} {c : Char} (h : c ∈ collapseWs l) :
    (isWs c = false ∧ c ∈ l) ∨ c = sp := by
  induction l with
  | nil => simp [collapseWs] at h
  | cons d rest ih =>
    cases rest with
    | nil =>
      by_cases hd : isWs d
      · simp [collapseWs, hd] at h
        exact Or.inr h
      · simp only [Bool.not_eq_true] at hd
        simp [collapseWs, hd] at h
        subst h
        exact Or.inl ⟨hd, by simp⟩
    | cons e rest' =>
      by_cases hd : isWs d
      · by_cases he : isWs e
        · rw [show collapseWs (d :: e :: rest') = collapseWs (e :: rest') by
            simp [collapseWs, hd, he]] at h
          rcases ih h with ⟨h1, h2⟩ | h1
          · exact Or.inl ⟨h1, by simp [h2]⟩
          · exact Or.inr h1
        · rw [show collapseWs (d :: e :: rest') = sp :: collapseWs (e :: rest') by
            simp [collapseWs, hd, he]] at h
          rcases List.mem_cons.mp h with rfl | h'
          · exact Or.inr rfl
          · rcases ih h' with ⟨h1, h2⟩ | h1
            · exact Or.inl ⟨h1, by simp [h2]⟩
            · exact Or.inr h1
      · simp only [Bool.not_eq_true] at hd
        rw [show collapseWs (d :: e :: rest') = d :: collapseWs (e :: rest') by
          simp [collapseWs, hd]] at h
        rcases List.mem_cons.mp h with rfl | h'
        · exact Or.inl ⟨hd, by simp⟩
        · rcases ih h' with ⟨h1, h2⟩ | h1
          · exact Or.inl ⟨h1, by simp [h2]⟩
          · exact Or.inr h1

theorem chain'_collapseWs (l : Str) :
    (collapseWs l).Chain' (fun a b => ¬(isWs a = true ∧ isWs b = true)) := by
  induction l with
  | nil => simp [collapseWs]
  | cons d rest ih =>
    cases rest with
    | nil =>
      by_cases hd : isWs d <;> simp [collapseWs, hd]
    | cons e rest' =>
      by_cases hd : isWs d
      · by_cases he : isWs e
        · rw [show collapseWs (d :: e :: rest') = collapseWs (e :: rest') by
            simp [collapseWs, hd, he]]
          exact ih
        · rw [show collapseWs (d :: e :: rest') = sp :: collapseWs (e :: rest') by
            simp [collapseWs, hd, he]]
          rw [collapseWs_cons_not_ws rest' (by simpa using he)] at ih ⊢
          rw [List.chain'_cons]
          refine ⟨?_, ih⟩
          intro ⟨_, hcon⟩
          exact he hcon
      · simp only [Bool.not_eq_true] at hd
        rw [show collapseWs (d :: e :: rest') = d :: collapseWs (e :: rest') by
          simp [collapseWs, hd]]
        rw [List.chain'_cons']
        refine ⟨?_, ih⟩
        intro y _
        intro ⟨hcon, _⟩
        rw [hd] at hcon
        exact Bool.false_ne_true hcon

theorem collapseWs_eq_self {l : Str}
    (hchain : l.Chain' (fun a b => ¬(isWs a = true ∧ isWs b = true)))
    (hsp : ∀ c ∈ l, isWs c = true → c = sp) : collapseWs l = l := by
  induction l with
  | nil => rfl
  | cons d rest ih =>
    cases rest with
    | nil =>
      by_cases hd : isWs d
      · have := hsp d (by simp) hd
        subst this
        rfl
      · simp only [Bool.not_eq_true] at hd
        simp [collapseWs, hd]
    | cons e rest' =>
      rw [List.chain'_cons] at hchain
      by_cases hd : isWs d
      · have hdsp := hsp d (by simp) hd
        have he : isWs e = false := by
          by_contra hcon
          simp only [Bool.not_eq_false] at hcon
          exact hchain.1 ⟨hd, hcon⟩
        rw [show collapseWs (d :: e :: rest') = sp :: collapseWs (e :: rest') by
          simp [collapseWs, hd, he]]
        rw [ih hchain.2 (fun c hc hwc => hsp c (by simp [hc]) hwc), hdsp]
      · simp only [Bool.not_eq_true] at hd
        rw [show collapseWs (d :: e :: rest') = d :: collapseWs (e :: rest') by
          simp [collapseWs, hd]]
        rw [ih hchain.2 (fun c hc hwc => hsp c (by simp [hc]) hwc)]

/-! ## Trimming -/

theorem head?_dropWhile_not {α : Type} {p : α → Bool} {l : List α} {c : α}
    (h : (l.dropWhile p).head? = some c) : p c = false := by
  induction l with
  | nil => simp [List.dropWhile] at h
  | cons a l ih =>
    by_cases ha : p a
    · rw [List.dropWhile_cons_of_pos ha] at h
      exact ih h
    · simp only [Bool.not_eq_true] at ha
      rw [List.dropWhile_cons_of_neg (by simp [ha])] at h
      simp only [List.head?_cons, Option.some.injEq] at h
      subst h
      exact ha

theorem dropWhile_eq_self_of_head {α : Type} {p : α → Bool} {l : List α}
    (h : ∀ c, l.head? = some c → p c = false) : l.dropWhile p = l := by
  cases l with
  | nil => rfl
  | cons a l => exact List.dropWhile_cons_of_neg (by simp [h a rfl])

theorem trimEnd_prefix (l : Str) : trimEnd l <+: l := by
  unfold trimEnd
  have h := List.dropWhile_suffix (l := l.reverse) (fun d => isWs d)
  have := List.reverse_prefix.mpr h
  simpa using this

theorem trim_within (l : Str) : trim l <:+: l := by
  unfold trim
  obtain ⟨t, ht⟩ := trimEnd_prefix (l.dropWhile (fun d => isWs d))
  obtain ⟨s, hs⟩ := List.dropWhile_suffix (l := l) (fun d => isWs d)
  exact ⟨s, t, by rw [List.append_assoc, ht, hs]⟩

theorem mem_trim {l : Str} {c : Char} (h : c ∈ trim l) : c ∈ l := by
  obtain ⟨s, t, hst⟩ := trim_within l
  rw [← hst]
  simp [h]

theorem head?_trim_not_ws {l : Str} {c : Char} (h : (trim l).head? = some c) :
    isWs c = false := by
  unfold trim at h
  obtain ⟨t, ht⟩ := trimEnd_prefix (l.dropWhile (fun d => isWs d))
  have hne : trimEnd (l.dropWhile (fun d => isWs d)) ≠ [] := by
    intro h0
    rw [h0] at h
    simp at h
  have hhead : (l.dropWhile (fun d => isWs d)).head? = some c := by
    rw [← ht]
    cases hE : trimEnd (l.dropWhile (fun d => isWs d)) with
    | nil => exact absurd hE hne
    | cons a t' =>
      rw [hE] at h
      simp only [List.head?_cons, Option.some.injEq] at h
      subst h
      simp
  exact head?_dropWhile_not hhead

theorem getLast?_trim_not_ws {l : Str} {c : Char} (h : (trim l).getLast? = some c) :
    isWs c = false := by
  unfold trim trimEnd at h
  rw [List.getLast?_reverse] at h
  exact head?_dropWhile_not h

theorem trimEnd_eq_self {l : Str} (h : ∀ c, l.getLast? = some c → isWs c = false) :
    trimEnd l = l := by
  unfold trimEnd
  rw [dropWhile_eq_self_of_head, List.reverse_reverse]
  intro c hc
  rw [List.head?_reverse] at hc
  exact h c hc

theorem trim_eq_self {l : Str} (h1 : ∀ c, l.head? = some c → isWs c = false)
    (h2 : ∀ c, l.getLast? = some c → isWs c = false) : trim l = l := by
  unfold trim
  rw [dropWhile_eq_self_of_head h1]
  exact trimEnd_eq_self h2

/-! ## Shape of the normalizer's output -/

theorem mem_normalizeText {s : Str} {c : Char} (h : c ∈ normalizeText s) :
    isLowerAlnum c = true ∨ c = sp := by
  unfold normalizeText at h
  rcases mem_collapseWs (mem_trim h) with ⟨hws, hmem⟩ | hsp
  · left
    simp only [List.mem_map] at hmem
    obtain ⟨x, _, rfl⟩ := hmem
    rcases scrub_shape x with h' | h'
    · exact h'
    · rw [h'] at hws
      exact absurd hws (by simp)
  · exact Or.inr hsp

theorem chain'_normalizeText (s : Str) :
    (normalizeText s).Chain' (fun a b => ¬(isWs a = true ∧ isWs b = true)) :=
  List.Chain'.infix (chain'_collapseWs _) (trim_within _)

theorem head?_normalizeText_not_ws {s : Str} {c : Char}
    (h : (normalizeText s).head? = some c) : isWs c = false :=
  head?_trim_not_ws h

theorem getLast?_normalizeText_not_ws {s : Str} {c : Char}
    (h : (normalizeText s).getLast? = some c) : isWs c = false :=
  getLast?_trim_not_ws h

theorem normalizeText_idem (s : Str) :
    normalizeText (normalizeText s) = normalizeText s := by
  have hmem : ∀ c ∈ normalizeText s, isLowerAlnum c = true ∨ c = sp :=
    fun c hc => mem_normalizeText hc
  have hlow : (normalizeText s).map jsToLower = normalizeText s := by
    rw [show (normalizeText s).map jsToLower = (normalizeText s).map id from
      List.map_congr_left (fun a ha => jsToLower_fixed (hmem a ha))]
    exact List.map_id _
  have hscrub : (normalizeText s).map scrub = normalizeText s := by
    rw [show (normalizeText s).map scrub = (normalizeText s).map id from
      List.map_congr_left (fun a ha => scrub_fixed (hmem a ha))]
    exact List.map_id _
  conv_lhs => rw [normalizeText]
  rw [hlow, hscrub]
  rw [collapseWs_eq_self (chain'_normalizeText s) ?hsp]
  case hsp =>
    intro c hc hwc
    rcases hmem c hc with h' | h'
    · rw [isWs_of_isLowerAlnum h'] at hwc
      exact absurd hwc (by simp)
    · exact h'
  exact trim_eq_self (fun c hc => head?_normalizeText_not_ws hc)
    (fun c hc => getLast?_normalizeText_not_ws hc)

/-- C8: the Text Normalizer is total over the model's strings and
idempotent, and its output contains only [a-z0-9] and spaces, with no
two adjacent spaces and no leading or trailing space. -/
theorem normalizeText_idempotent_shape :
    (∀ s : Str, normalizeText (normalizeText s) = normalizeText s) ∧
    (∀ s : Str, ∀ c ∈ normalizeText s, isLowerAlnum c = true ∨ c = sp) ∧
    (∀ s : Str, (normalizeText s).Chain' (fun a b => ¬(a = sp ∧ b = sp))) ∧
    (∀ (s : Str) (c : Char), (normalizeText s).head? = some c → c ≠ sp) ∧
    (∀ (s : Str) (c : Char), (normalizeText s).getLast? = some c → c ≠ sp) := by
  refine ⟨normalizeText_idem, fun s c hc => mem_normalizeText hc, ?_, ?_, ?_⟩
  · intro s
    refine (chain'_normalizeText s).imp ?_
    intro a b hab ⟨ha, hb⟩
    exact hab ⟨ha ▸ isWs_sp, hb ▸ isWs_sp⟩
  · intro s c hc hcon
    subst hcon
    have h2 := head?_normalizeText_not_ws hc
    rw [isWs_sp] at h2
    exact absurd h2 (by decide)
  · intro s c hc hcon
    subst hcon
    have h2 := getLast?_normalizeText_not_ws hc
    rw [isWs_sp] at h2
    exact absurd h2 (by decide)

/-- Witness for the parts of the idempotence claim that carry a
hypothesis, at a concrete input. -/
theorem normalizeText_idempotent_shape_witness :
    normalizeText (normalizeText (str "  Hello,  WORLD!! 42 ")) =
      normalizeText (str "  Hello,  WORLD!! 42 ") ∧
    (isLowerAlnum 'h' = true ∨ 'h' = sp) :=
  ⟨normalizeText_idempotent_shape.1 (str "  Hello,  WORLD!! 42 "),
    normalizeText_idempotent_shape.2.1 (str "  Hello,  WORLD!! 42 ") 'h' (by decide)⟩

/-! ## Tokenizer -/

/-- C7 counterexample: the claim's concrete value for
tokenize "a an the catalog" does not match the code, which keeps the
three-character token "the" (the filter keeps length > 2). -/
theorem tokenize_example_cex : tokenize (str "a an the catalog") ≠ [str "catalog"] := by
  decide

/-- C7 (amended): the tokenizer is the normalizer's output split on
single spaces filtered to tokens of length > 2, order and duplicates
preserved (a sublist of the split), and never returns a token of length
at most 2; concretely tokenize "a an the catalog" is ["the", "catalog"]. -/
theorem tokenize_spec :
    (∀ s : Str, (tokenize s).Sublist ((normalizeText s).splitOn sp)) ∧
    (∀ s t : Str, t ∈ tokenize s → 2 < t.length) ∧
    tokenize (str "a an the catalog") = [str "the", str "catalog"] := by
  refine ⟨?_, ?_, by decide⟩
  · intro s
    exact List.filter_sublist _
  · intro s t ht
    have := List.of_mem_filter ht
    simpa using this

/-- Witness for the tokenizer claim's hypothesis at a concrete token. -/
theorem tokenize_spec_witness : 2 < (str "the").length :=
  tokenize_spec.2.1 (str "a an the catalog") (str "the") (by decide)

/-! ## Overlap scoring -/

theorem overlap_eq_countP (qT tokens : List Str) :
    overlap qT tokens = qT.countP (fun q => decide (q ∈ tokens)) := by
  unfold overlap
  suffices h : ∀ (l : List Str) (n : Nat),
      l.foldl (fun acc q => if q ∈ tokens then acc + 1 else acc) n =
        n + l.countP (fun q => decide (q ∈ tokens)) by
    simpa using h qT 0
  intro l
  induction l with
  | nil => intro n; simp
  | cons q qs ih =>
    intro n
    by_cases hq : q ∈ tokens
    · simp [List.foldl_cons, List.countP_cons, hq, ih]
      omega
    · simp [List.foldl_cons, List.countP_cons, hq, ih]

/-- C2: the overlap score counts, with repetitions, the question tokens
that occur among the sentence's tokens; a token occurring twice in the
question and present in the sentence contributes two. -/
theorem overlap_counts_question_repeats :
    (∀ question sentence : Str,
      overlap (tokenize question) (tokenize sentence) =
        ((tokenize question).filter
          (fun q => decide (q ∈ tokenize sentence))).length) ∧
    (∀ (t : Str) (ts : List Str), t ∈ ts → overlap [t, t] ts = 2) := by
  constructor
  · intro question sentence
    rw [overlap_eq_countP, List.countP_eq_length_filter]
  · intro t ts ht
    simp [overlap, ht]

/-- Witness for the repeated-token part of the overlap claim. -/
theorem overlap_counts_question_repeats_witness :
    overlap [str "skull", str "skull"] [str "skull", str "brain"] = 2 :=
  overlap_counts_question_repeats.2 (str "skull") [str "skull", str "brain"]
    (by decide)

/-! ## Document extractor dispatch -/

/-- C5: extractTextFromFile dispatches on MIME type with a filename
extension fallback: text is returned verbatim; a PDF whose parse has no
text field and a DOCX whose parse has no value both yield the empty
string; everything outside the three supported kinds fails with the
unsupported-file-type error message. -/
theorem extractTextFromFile_dispatch :
    (∀ (mt name ft : Str) (pt mv : Option Str),
      mt = mimeTextPlain ∨ (extname name).map jsToLower = str ".txt" →
      extractTextFromFile mt name ft pt mv = .ok ft) ∧
    (∀ (mt name ft : Str) (mv : Option Str),
      mt = mimePdf ∨ (extname name).map jsToLower = str ".pdf" →
      mt ≠ mimeTextPlain → (extname name).map jsToLower ≠ str ".txt" →
      extractTextFromFile mt name ft none mv = .ok []) ∧
    (∀ (mt name ft : Str) (pt : Option Str),
      mt = mimeDocx ∨ (extname name).map jsToLower = str ".docx" →
      mt ≠ mimeTextPlain → mt ≠ mimePdf →
      (extname name).map jsToLower ≠ str ".txt" →
      (extname name).map jsToLower ≠ str ".pdf" →
      extractTextFromFile mt name ft pt none = .ok []) ∧
    (∀ (mt name ft : Str) (pt mv : Option Str),
      mt ≠ mimeTextPlain → mt ≠ mimePdf → mt ≠ mimeDocx →
      (extname name).map jsToLower ≠ str ".txt" →
      (extname name).map jsToLower ≠ str ".pdf" →
      (extname name).map jsToLower ≠ str ".docx" →
      extractTextFromFile mt name ft pt mv = .unsupported unsupportedMsg) := by
  refine ⟨?_, ?_, ?_, ?_⟩
  · intro mt name ft pt mv h
    unfold extractTextFromFile
    rw [if_pos h]
  · intro mt name ft mv h h1 h2
    unfold extractTextFromFile
    rw [if_neg (by tauto), if_pos h]
    rfl
  · intro mt name ft pt h h1 h2 h3 h4
    unfold extractTextFromFile
    rw [if_neg (by tauto), if_neg (by tauto), if_pos h]
    rfl
  · intro mt name ft pt mv h1 h2 h3 h4 h5 h6
    unfold extractTextFromFile
    rw [if_neg (by tauto), if_neg (by tauto), if_neg (by tauto)]

/-- Witness for the extractor dispatch at one concrete input per
branch. -/
theorem extractTextFromFile_dispatch_witness :
    extractTextFromFile mimeTextPlain (str "notes.txt") (str "hello") none none =
      ExtractResult.ok (str "hello") ∧
    extractTextFromFile mimePdf (str "a.pdf") (str "raw") none none =
      ExtractResult.ok [] ∧
    extractTextFromFile mimeDocx (str "a.docx") (str "raw") none none =
      ExtractResult.ok [] ∧
    extractTextFromFile (str "image/png") (str "x.png") (str "raw") none none =
      ExtractResult.unsupported unsupportedMsg :=
  ⟨extractTextFromFile_dispatch.1 mimeTextPlain (str "notes.txt") (str "hello")
      none none (Or.inl rfl),
    extractTextFromFile_dispatch.2.1 mimePdf (str "a.pdf") (str "raw") none
      (Or.inl rfl) (by decide) (by decide),
    extractTextFromFile_dispatch.2.2.1 mimeDocx (str "a.docx") (str "raw") none
      (Or.inl rfl) (by decide) (by decide) (by decide) (by decide),
    extractTextFromFile_dispatch.2.2.2 (str "image/png") (str "x.png")
      (str "raw") none none (by decide) (by decide) (by decide) (by decide)
      (by decide) (by decide)⟩

/-! ## Chat endpoint: blank questions -/

/-- C4 counterexample: an empty or whitespace-only question takes the
400 error path of the endpoint, not a placeholder result, at a concrete
corpus and at the empty corpus. -/
theorem chat_blank_question_cex :
    aiChat (str "") [⟨str "Anatomy", str "The skull protects the brain."⟩] =
      ChatResponse.error 400 (str "Missing question") ∧
    aiChat (str "   ") [] = ChatResponse.error 400 (str "Missing question") :=
  ⟨by decide, by decide⟩

/-- C4 (amended): for every corpus, an empty or whitespace-only question
is rejected with the 400 Missing-question error before the store is
consulted; it never produces a match result. -/
theorem chat_blank_question_rejected (question : Str)
    (entries : List KnowledgeEntry) (h : trim question = []) :
    aiChat question entries = .error 400 (str "Missing question") := by
  unfold aiChat
  rw [if_pos (by simp [h])]

/-- Witness for the blank-question rejection at a concrete input. -/
theorem chat_blank_question_rejected_witness :
    aiChat (str " ") [] = ChatResponse.error 400 (str "Missing question") :=
  chat_blank_question_rejected (str " ") [] (by decide)

/-! ## Chat endpoint: fallback answers -/

theorem foldl_stepSentence_zero {qT : List Str} {title : Str} {sents : List Str}
    (h : ∀ s ∈ sents, overlap qT (tokenize s) = 0) :
    ∀ b : Best, sents.foldl (stepSentence qT title) b = b := by
  induction sents with
  | nil => intro b; rfl
  | cons s ss ih =>
    intro b
    rw [List.foldl_cons, show stepSentence qT title b s = b from by
      unfold stepSentence
      rw [h s (by simp)]
      simp]
    exact ih (fun s' hs' => h s' (by simp [hs'])) b

theorem runMatcher_all_zero {qT : List Str} {entries : List KnowledgeEntry}
    (h : ∀ e ∈ entries, ∀ s ∈ splitSentences e.text,
      overlap qT (tokenize s) = 0) :
    runMatcher qT entries = initBest := by
  unfold runMatcher
  suffices hgen : ∀ es : List KnowledgeEntry,
      (∀ e ∈ es, ∀ s ∈ splitSentences e.text, overlap qT (tokenize s) = 0) →
      ∀ b, es.foldl (stepEntry qT) b = b by
    exact hgen entries h initBest
  intro es
  induction es with
  | nil => intro _ b; rfl
  | cons e es ih =>
    intro hes b
    rw [List.foldl_cons, show stepEntry qT b e = b from by
      unfold stepEntry
      exact foldl_stepSentence_zero (hes e (by simp)) b]
    exact ih (fun e' he' s hs => hes e' (by simp [he']) s hs) b

/-- C3: with a valid question, the empty store produces the
no-training-material answer, and a non-empty store in which every
sentence has overlap zero produces the no-relevant-answer fallback,
independent of corpus size; neither takes the error branch. -/
theorem chat_empty_store_and_no_overlap :
    (∀ question : Str, trim question ≠ [] →
      aiChat question [] = .answerOnly noTrainingMsg) ∧
    (∀ (question : Str) (entries : List KnowledgeEntry),
      trim question ≠ [] → entries ≠ [] →
      (∀ e ∈ entries, ∀ s ∈ splitSentences e.text,
        overlap (tokenize question) (tokenize s) = 0) →
      aiChat question entries = .answerOnly noAnswerMsg) := by
  constructor
  · intro question h
    unfold aiChat
    rw [if_neg (by simpa using h)]
    rfl
  · intro question entries h1 h2 h3
    unfold aiChat
    rw [if_neg (by simpa using h1), if_neg (by simpa using h2),
      runMatcher_all_zero h3]
    rfl

/-- Witness for both fallback branches at concrete inputs. -/
theorem chat_empty_store_and_no_overlap_witness :
    aiChat (str "what is bone") [] = ChatResponse.answerOnly noTrainingMsg ∧
    aiChat (str "zebra") [⟨str "T", str "Bones are hard."⟩] =
      ChatResponse.answerOnly noAnswerMsg :=
  ⟨chat_empty_store_and_no_overlap.1 (str "what is bone") (by decide),
    chat_empty_store_and_no_overlap.2 (str "zebra")
      [⟨str "T", str "Bones are hard."⟩] (by decide) (by decide) (by decide)⟩

/-! ## Chat endpoint: empty source title -/

/-- C10: when the endpoint answers with a matched sentence and the
winning entry's title is empty, the sourceTitle field is absent (none),
and a matched response never carries an empty-string source title. -/
theorem chat_empty_title_absent :
    (∀ (question : Str) (entries : List KnowledgeEntry),
      (runMatcher (tokenize question) entries).title = [] →
      ∀ (ans : Str) (st : Option Str),
        aiChat question entries = .matched ans st → st = none) ∧
    (∀ (question : Str) (entries : List KnowledgeEntry) (ans : Str),
      aiChat question entries ≠ .matched ans (some [])) := by
  constructor
  · intro question entries ht ans st heq
    unfold aiChat at heq
    split_ifs at heq with h1 h2 h3 h4
    · injection heq with ha hst
      exact hst.symm
    · rw [ht] at h4
      exact absurd rfl h4
  · intro question entries ans heq
    unfold aiChat at heq
    split_ifs at heq with h1 h2 h3 h4
    · injection heq with ha hst
      exact absurd hst (by simp)
    · injection heq with ha hst
      injection hst with h5
      rw [h5] at h4
      exact h4 rfl

/-- Witness for the empty-title claim at a concrete corpus whose entry
has an empty title. -/
theorem chat_empty_title_absent_witness :
    (runMatcher (tokenize (str "bones")) [⟨[], str "Bones are hard."⟩]).title
      = [] ∧
    (none : Option Str) = none :=
  ⟨by decide,
    chat_empty_title_absent.1 (str "bones") [⟨[], str "Bones are hard."⟩]
      (by decide) (str "Bones are hard.") none (by decide)⟩

/-! ## The matcher as a fold over the flattened scan -/

theorem runMatcher_eq_foldl_candidates (qT : List Str)
    (entries : List KnowledgeEntry) :
    runMatcher qT entries = (candidates entries).foldl (stepCand qT) initBest := by
  unfold runMatcher candidates
  suffices h : ∀ (es : List KnowledgeEntry) (b : Best),
      es.foldl (stepEntry qT) b =
        (es.flatMap fun e => (splitSentences e.text).map fun s => (s, e.title)).foldl
          (stepCand qT) b by
    exact h entries initBest
  intro es
  induction es with
  | nil => intro b; rfl
  | cons e es ih =>
    intro b
    rw [List.foldl_cons, List.flatMap_cons, List.foldl_append, ih]
    congr 1
    unfold stepEntry
    rw [List.foldl_map]
    rfl

/-- The strict-greater fold keeps the first candidate attaining the
maximum overlap among those exceeding the initial score, or the initial
record when nothing exceeds it. -/
theorem foldl_stepCand_first_max (qT : List Str) :
    ∀ (l : List (Str × Str)) (b : Best),
      ((∀ p ∈ l, overlap qT (tokenize p.1) ≤ b.score) ∧
        l.foldl (stepCand qT) b = b) ∨
      (∃ pre p post, l = pre ++ p :: post ∧
        b.score < overlap qT (tokenize p.1) ∧
        (∀ q ∈ pre, overlap qT (tokenize q.1) < overlap qT (tokenize p.1)) ∧
        (∀ q ∈ post, overlap qT (tokenize q.1) ≤ overlap qT (tokenize p.1)) ∧
        l.foldl (stepCand qT) b =
          ⟨overlap qT (tokenize p.1), trim p.1, p.2⟩) := by
  intro l
  induction l with
  | nil =>
    intro b
    left
    simp
  | cons p0 rest ih =>
    intro b
    by_cases h0 : b.score < overlap qT (tokenize p0.1)
    · have hstep : stepCand qT b p0 = ⟨overlap qT (tokenize p0.1), trim p0.1, p0.2⟩ := by
        simp [stepCand, h0]
      rcases ih ⟨overlap qT (tokenize p0.1), trim p0.1, p0.2⟩ with
        ⟨hall, heq⟩ | ⟨pre, p, post, hsplit, hgt, hpre, hpost, heq⟩
      · right
        refine ⟨[], p0, rest, by simp, h0, by simp, ?_, ?_⟩
        · intro q hq
          simpa using hall q hq
        · rw [List.foldl_cons, hstep, heq]
      · right
        refine ⟨p0 :: pre, p, post, by simp [hsplit], ?_, ?_, hpost, ?_⟩
        · have h1 : overlap qT (tokenize p0.1) < overlap qT (tokenize p.1) := by
            simpa using hgt
          omega
        · intro q hq
          rcases List.mem_cons.mp hq with rfl | hq'
          · simpa using hgt
          · exact hpre q hq'
        · rw [List.foldl_cons, hstep, heq]
    · have hstep : stepCand qT b p0 = b := by
        simp [stepCand, h0]
      rcases ih b with ⟨hall, heq⟩ | ⟨pre, p, post, hsplit, hgt, hpre, hpost, heq⟩
      · left
        refine ⟨?_, by rw [List.foldl_cons, hstep, heq]⟩
        intro q hq
        rcases List.mem_cons.mp hq with rfl | hq'
        · omega
        · exact hall q hq'
      · right
        refine ⟨p0 :: pre, p, post, by simp [hsplit], hgt, ?_, hpost,
          by rw [List.foldl_cons, hstep, heq]⟩
        intro q hq
        rcases List.mem_cons.mp hq with rfl | hq'
        · omega
        · exact hpre q hq'

theorem mem_candidates {entries : List KnowledgeEntry} {p : Str × Str}
    (h : p ∈ candidates entries) :
    ∃ e ∈ entries, p.1 ∈ splitSentences e.text ∧ p.2 = e.title := by
  unfold candidates at h
  rw [List.mem_flatMap] at h
  obtain ⟨e, he, hmem⟩ := h
  rw [List.mem_map] at hmem
  obtain ⟨s, hs, hps⟩ := hmem
  exact ⟨e, he, by rw [← hps]; exact hs, by rw [← hps]⟩

/-- C1: the matcher tracks the best sentence with strict greater-than
from an initial score of 0: either every candidate has overlap 0 and
the initial record survives (no sentence with overlap 0 is ever
selected), or the returned record is the first candidate, in entry
order then sentence order, attaining the maximum overlap — everything
before it scores strictly less and everything after it scores no
more. -/
theorem matcher_first_strict_max (question : Str)
    (entries : List KnowledgeEntry) :
    ((∀ p ∈ candidates entries,
        overlap (tokenize question) (tokenize p.1) = 0) ∧
      runMatcher (tokenize question) entries = initBest) ∨
    (∃ pre p post, candidates entries = pre ++ p :: post ∧
      0 < overlap (tokenize question) (tokenize p.1) ∧
      (∀ q ∈ pre, overlap (tokenize question) (tokenize q.1) <
        overlap (tokenize question) (tokenize p.1)) ∧
      (∀ q ∈ post, overlap (tokenize question) (tokenize q.1) ≤
        overlap (tokenize question) (tokenize p.1)) ∧
      runMatcher (tokenize question) entries =
        ⟨overlap (tokenize question) (tokenize p.1), trim p.1, p.2⟩) := by
  rw [runMatcher_eq_foldl_candidates]
  rcases foldl_stepCand_first_max (tokenize question) (candidates entries)
      initBest with ⟨hall, heq⟩ | ⟨pre, p, post, hsplit, hgt, hpre, hpost, heq⟩
  · left
    exact ⟨fun p hp => Nat.le_zero.mp (hall p hp), heq⟩
  · right
    exact ⟨pre, p, post, hsplit, hgt, hpre, hpost, heq⟩

/-- Witness: the matcher claim instantiated at a concrete question and
corpus with a tie (two sentences of equal overlap; the first wins). -/
theorem matcher_first_strict_max_witness :
    ((∀ p ∈ candidates [⟨str "T", str "Bones are hard. Bones are white."⟩],
        overlap (tokenize (str "bones")) (tokenize p.1) = 0) ∧
      runMatcher (tokenize (str "bones"))
        [⟨str "T", str "Bones are hard. Bones are white."⟩] = initBest) ∨
    (∃ pre p post,
      candidates [⟨str "T", str "Bones are hard. Bones are white."⟩] =
        pre ++ p :: post ∧
      0 < overlap (tokenize (str "bones")) (tokenize p.1) ∧
      (∀ q ∈ pre, overlap (tokenize (str "bones")) (tokenize q.1) <
        overlap (tokenize (str "bones")) (tokenize p.1)) ∧
      (∀ q ∈ post, overlap (tokenize (str "bones")) (tokenize q.1) ≤
        overlap (tokenize (str "bones")) (tokenize p.1)) ∧
      runMatcher (tokenize (str "bones"))
        [⟨str "T", str "Bones are hard. Bones are white."⟩] =
        ⟨overlap (tokenize (str "bones")) (tokenize p.1), trim p.1, p.2⟩) :=
  matcher_first_strict_max (str "bones")
    [⟨str "T", str "Bones are hard. Bones are white."⟩]

/-- C9: whenever the matcher's best record holds a sentence, its score
is bounded by the question's token count, the sentence is the trim of
one of the sentences split from some entry of the corpus, and the title
is that same entry's title. -/
theorem matcher_result_wellformed (question : Str)
    (entries : List KnowledgeEntry)
    (h : (runMatcher (tokenize question) entries).sentence ≠ []) :
    (runMatcher (tokenize question) entries).score ≤
      (tokenize question).length ∧
    ∃ e ∈ entries, ∃ s ∈ splitSentences e.text,
      (runMatcher (tokenize question) entries).sentence = trim s ∧
      (runMatcher (tokenize question) entries).title = e.title := by
  rw [runMatcher_eq_foldl_candidates] at h ⊢
  rcases foldl_stepCand_first_max (tokenize question) (candidates entries)
      initBest with ⟨_, heq⟩ | ⟨pre, p, post, hsplit, _, _, _, heq⟩
  · rw [heq] at h
    exact absurd rfl h
  · rw [heq]
    constructor
    · rw [show (Best.mk (overlap (tokenize question) (tokenize p.1))
        (trim p.1) p.2).score = overlap (tokenize question) (tokenize p.1) from rfl]
      rw [overlap_eq_countP]
      exact List.countP_le_length _
    · have hp : p ∈ candidates entries := by
        rw [hsplit]
        exact List.mem_append_right _ (List.mem_cons_self _ _)
      obtain ⟨e, he, hs, hti⟩ := mem_candidates hp
      exact ⟨e, he, p.1, hs, rfl, hti⟩

/-- Witness for the matcher well-formedness at a concrete corpus. -/
theorem matcher_result_wellformed_witness :
    (runMatcher (tokenize (str "bones"))
        [⟨str "T", str "Bones are hard."⟩]).score ≤
      (tokenize (str "bones")).length ∧
    ∃ e ∈ [(⟨str "T", str "Bones are hard."⟩ : KnowledgeEntry)],
      ∃ s ∈ splitSentences e.text,
        (runMatcher (tokenize (str "bones"))
          [⟨str "T", str "Bones are hard."⟩]).sentence = trim s ∧
        (runMatcher (tokenize (str "bones"))
          [⟨str "T", str "Bones are hard."⟩]).title = e.title :=
  matcher_result_wellformed (str "bones") [⟨str "T", str "Bones are hard."⟩]
    (by decide)

/-! ## Sentence splitter -/

theorem consHead_ne_nil (c : Char) (x : List Str) : consHead c x ≠ [] := by
  cases x <;> simp [consHead]

theorem splitAfterPunct_ne_nil (l : Str) : splitAfterPunct l ≠ [] := by
  cases l with
  | nil => simp [splitAfterPunct]
  | cons c rest =>
    cases rest with
    | nil => simp [splitAfterPunct]
    | cons d rest' =>
      by_cases h : (isPunct c && d == sp) = true
      · simp [splitAfterPunct, h]
      · rw [show splitAfterPunct (c :: d :: rest') =
            consHead c (splitAfterPunct (d :: rest')) from by
          simp [splitAfterPunct, h]]
        exact consHead_ne_nil _ _

theorem joinSp_consHead (c : Char) {x : List Str} (h : x ≠ []) :
    joinSp (consHead c x) = c :: joinSp x := by
  cases x with
  | nil => exact absurd rfl h
  | cons f fs =>
    cases fs with
    | nil => rfl
    | cons f' fs' => rfl

theorem joinSp_splitAfterPunct (l : Str) : joinSp (splitAfterPunct l) = l := by
  induction l using splitAfterPunct.induct with
  | case1 => rfl
  | case2 c => rfl
  | case3 c d rest h ih =>
    rw [show splitAfterPunct (c :: d :: rest) = [c] :: splitAfterPunct rest from by
      simp [splitAfterPunct, h]]
    have hd : d = sp := by
      have h2 := ((Bool.and_eq_true _ _).mp h).2
      exact eq_of_beq h2
    cases hsp : splitAfterPunct rest with
    | nil => exact absurd hsp (splitAfterPunct_ne_nil rest)
    | cons f fs =>
      rw [show joinSp ([c] :: f :: fs) = [c] ++ sp :: joinSp (f :: fs) from rfl,
        ← hsp, ih, hd]
      rfl
  | case4 c d rest h ih =>
    rw [show splitAfterPunct (c :: d :: rest) =
        consHead c (splitAfterPunct (d :: rest)) from by
      simp [splitAfterPunct, h]]
    rw [joinSp_consHead c (splitAfterPunct_ne_nil _), ih]

theorem mem_splitSentences {text f : Str} (h : f ∈ splitSentences text) :
    f ≠ [] ∧ trim f ≠ [] := by
  unfold splitSentences at h
  have h2 := List.of_mem_filter h
  simp only [Bool.and_eq_true, Bool.not_eq_true', List.isEmpty_eq_false] at h2
  exact h2

theorem splitAfterPunct_no_punct {l : Str} (h : ∀ c ∈ l, isPunct c = false) :
    splitAfterPunct l = [l] := by
  induction l with
  | nil => rfl
  | cons c rest ih =>
    cases rest with
    | nil => rfl
    | cons d rest' =>
      have hc : isPunct c = false := h c (by simp)
      rw [show splitAfterPunct (c :: d :: rest') =
          consHead c (splitAfterPunct (d :: rest')) from by
        simp [splitAfterPunct, hc]]
      rw [ih (fun x hx => h x (by simp [hx]))]
      rfl

theorem splitSentences_no_punct {text : Str}
    (hp : ∀ c ∈ text, isPunct c = false)
    (ht : trim (collapseWs text) ≠ []) :
    splitSentences text = [collapseWs text] := by
  unfold splitSentences
  rw [splitAfterPunct_no_punct ?hc]
  case hc =>
    intro c hc
    rcases mem_collapseWs hc with ⟨_, hmem⟩ | rfl
    · exact hp c hmem
    · exact isPunct_sp
  have hne : collapseWs text ≠ [] := by
    intro h0
    rw [h0] at ht
    exact ht rfl
  rw [List.filter_cons, if_pos (by
    simp only [Bool.and_eq_true, Bool.not_eq_true', List.isEmpty_eq_false]
    exact ⟨hne, ht⟩)]
  rfl

theorem mem_dropLast_splitAfterPunct (l : Str) :
    ∀ f ∈ (splitAfterPunct l).dropLast,
      ∃ c, f.getLast? = some c ∧ isPunct c = true := by
  induction l using splitAfterPunct.induct with
  | case1 =>
    intro f hf
    simp [splitAfterPunct] at hf
  | case2 c =>
    intro f hf
    simp [splitAfterPunct] at hf
  | case3 c d rest h ih =>
    intro f hf
    rw [show splitAfterPunct (c :: d :: rest) = [c] :: splitAfterPunct rest from by
      simp [splitAfterPunct, h]] at hf
    rw [List.dropLast_cons_of_ne_nil (splitAfterPunct_ne_nil rest)] at hf
    rcases List.mem_cons.mp hf with rfl | hf'
    · exact ⟨c, rfl, ((Bool.and_eq_true _ _).mp h).1⟩
    · exact ih f hf'
  | case4 c d rest h ih =>
    intro f hf
    rw [show splitAfterPunct (c :: d :: rest) =
        consHead c (splitAfterPunct (d :: rest)) from by
      simp [splitAfterPunct, h]] at hf
    cases hsp : splitAfterPunct (d :: rest) with
    | nil => exact absurd hsp (splitAfterPunct_ne_nil _)
    | cons f0 fs =>
      rw [hsp, show consHead c (f0 :: fs) = (c :: f0) :: fs from rfl] at hf
      cases fs with
      | nil => simp at hf
      | cons f1 fs' =>
        rw [List.dropLast_cons_of_ne_nil (by simp)] at hf
        rcases List.mem_cons.mp hf with rfl | hf'
        · have hf0 : f0 ∈ (splitAfterPunct (d :: rest)).dropLast := by
            rw [hsp, List.dropLast_cons_of_ne_nil (by simp)]
            simp
          obtain ⟨c', hlast, hpunct⟩ := ih f0 hf0
          refine ⟨c', ?_, hpunct⟩
          cases f0 with
          | nil => simp at hlast
          | cons a as =>
            rw [List.getLast?_cons_cons]
            exact hlast
        · have hmem : f ∈ (splitAfterPunct (d :: rest)).dropLast := by
            rw [hsp, List.dropLast_cons_of_ne_nil (by simp)]
            exact List.mem_cons_of_mem _ hf'
          exact ih f hmem

/-- C6: the sentence splitter collapses whitespace and splits just
after sentence punctuation followed by whitespace, keeping the
delimiter and consuming the whitespace (joining the raw fragments with
single spaces restores the collapsed text, and every raw fragment but
the last ends in a punctuation mark); it discards empty or
whitespace-only fragments; punctuation-free text yields the single
whole collapsed fragment; and the concrete example of the
specification holds. -/
theorem splitSentences_spec :
    splitSentences (str "Bone is hard. Cartilage is soft!") =
      [str "Bone is hard.", str "Cartilage is soft!"] ∧
    (∀ text f : Str, f ∈ splitSentences text → f ≠ [] ∧ trim f ≠ []) ∧
    (∀ text : Str, (∀ c ∈ text, isPunct c = false) →
      trim (collapseWs text) ≠ [] →
      splitSentences text = [collapseWs text]) ∧
    (∀ text : Str, joinSp (splitAfterPunct (collapseWs text)) = collapseWs text) ∧
    (∀ text : Str, ∀ f ∈ (splitAfterPunct (collapseWs text)).dropLast,
      ∃ c, f.getLast? = some c ∧ isPunct c = true) := by
  refine ⟨by decide, ?_, ?_, ?_, ?_⟩
  · intro text f hf
    exact mem_splitSentences hf
  · intro text hp ht
    exact splitSentences_no_punct hp ht
  · intro text
    exact joinSp_splitAfterPunct _
  · intro text
    exact mem_dropLast_splitAfterPunct _

/-- Witness for the splitter claim's hypotheses at concrete inputs. -/
theorem splitSentences_spec_witness :
    (str "Hi!" ≠ ([] : Str) ∧ trim (str "Hi!") ≠ []) ∧
    splitSentences (str "no punctuation here") =
      [collapseWs (str "no punctuation here")] :=
  ⟨splitSentences_spec.2.1 (str "Hi!  Bye.") (str "Hi!") (by decide),
    splitSentences_spec.2.2.1 (str "no punctuation here") (by decide) (by decide)⟩

end Claronav
